import Mathlib

/-!
Verification of the nutritional-data notebook's core pipeline
(`load_dataset`, `impute_dataset`, `random_forest_fit_predict`,
`avg_random_forest_fit_predict`, `multisplit_avg_random_forest_fit_predict`,
`drop_feature_experiment`, `avg_drop_feature_experiment`).

The notebook's numeric values (Python floats) are modelled as rationals `ℚ`.
The external collaborators — the CSV file on disk, pandas frames, scikit-learn's
randomized `RandomForestRegressor`, and the random `train_test_split` — enter the
embedding as explicit parameters: an abstract oracle describes what the library
returns for each fitting call, and the stream of global randomness consumed by
the library is modelled as a natural-number counter threaded through every call,
advancing by one at each randomness draw.  Python exceptions (`ZeroDivisionError`
from `x / 0`, index errors) are modelled with `Except String`.
-/

namespace MlNutrition

/-! ### CSV cells and `load_dataset` -/

/-- A cell of the raw CSV frame: a string, a number, or the missing marker
(pandas `NA`/`NaN`). -/
inductive Cell where
  | str (s : String)
  | num (q : ℚ)
  | na
deriving DecidableEq, Repr

/-- A raw dataframe, as a list of columns of cells. -/
abbrev RawFrame := List (List Cell)

/-- Model of `pd.read_csv`: the input is already the parsed table, so reading is
the identity on it. -/
def read_csv (file : RawFrame) : RawFrame := file

/-- Model of `df.replace(to_replace="NA", value=pd.NA)` applied to one cell. -/
def replace_NA_cell (c : Cell) : Cell :=
  match c with
  | .str s => if s = "NA" then .na else .str s
  | c => c

/-- Model of `df.replace(to_replace="NA", value=pd.NA)`: a new frame with every
string cell `"NA"` replaced by the missing marker (pandas returns a new frame;
it does not mutate `df` in place). -/
def df_replace_NA (df : RawFrame) : RawFrame :=
  df.map (fun col => col.map replace_NA_cell)

/-- The function `load_dataset` from the notebook: reads the CSV, evaluates
`df.replace(to_replace="NA", value=pd.NA)` without assigning its result, and
returns `df`. -/
def load_dataset (file : RawFrame) : RawFrame :=
  let df := read_csv file
  let _discarded := df_replace_NA df
  df

/-! ### Numeric frames and `impute_dataset` -/

/-- A numeric dataframe, as a list of columns; a cell is `none` when missing. -/
abbrev NumFrame := List (List (Option ℚ))

/-- Median of a list of rationals, as pandas computes it: sort ascending, take
the middle element (odd length) or the mean of the two middle elements (even
length); the median of an empty list is `NaN`, modelled as `none`. -/
def medianQ (l : List ℚ) : Option ℚ :=
  let s := l.mergeSort (fun a b => a ≤ b)
  let n := s.length
  if n = 0 then none
  else if n % 2 = 1 then some (s.getD (n / 2) 0)
  else some ((s.getD (n / 2 - 1) 0 + s.getD (n / 2) 0) / 2)

/-- The median of one column, skipping missing entries
(`DataFrame.median()` uses `skipna=True`). -/
def colMedian (col : List (Option ℚ)) : Option ℚ :=
  medianQ (col.filterMap id)

/-- Model of `fillna` on one column with that column's median: missing entries become the
median; when the median is itself `NaN` (all-missing column) `fillna` leaves
them missing; non-missing entries are untouched. -/
def fill_col (col : List (Option ℚ)) : List (Option ℚ) :=
  let m := colMedian col
  col.map (fun c =>
    match c with
    | some v => some v
    | none => m)

/-- The function `impute_dataset` from the notebook: `dataset.fillna(dataset.median())`,
column by column. -/
def impute_dataset (df : NumFrame) : NumFrame :=
  df.map fill_col

/-! ### Frames, the random-forest oracle, and the randomness stream -/

/-- A preprocessed pandas frame, abstracted to what the elimination pipeline
observes: its named columns and a token identifying the underlying data
(which rows it holds).  Column restriction `X[feature_names]` keeps the token
and changes the column list. -/
structure Frame where
  cols : List String
  id : Nat
deriving DecidableEq, Repr

/-- The arguments of one `RandomForestRegressor` fit, as seen by the library:
the training columns, the data tokens of the four frames, the two
hyperparameters, and the state of the global randomness stream at the moment of
the fit. -/
structure FitCall where
  cols : List String
  trainId : Nat
  testId : Nat
  yTrainId : Nat
  yTestId : Nat
  n_estimators : Nat
  max_depth : Nat
  rng : Nat
deriving DecidableEq, Repr

/-- Abstract model of the external scikit-learn library: what one randomized
ensemble fit returns.  `score` is the training `R²`, `mse` the held-out mean
squared error, and `imp` the per-feature importance
(`random_forest.feature_importances_`). -/
structure RFOracle where
  score : FitCall → ℚ
  mse : FitCall → ℚ
  imp : FitCall → String → ℚ

/-- A one-column importance frame: `pd.DataFrame({"feature_importance": values},
index=columns)`. -/
structure ImpFrame where
  index : List String
  values : List ℚ
deriving DecidableEq, Repr

/-- Model of `train_test_split(X, y, test_size=0.2)`: consumes one draw of the
global randomness stream and produces a fresh train/test partition of the data;
the partition's identity is determined by the data token and the draw. -/
def train_test_split (X : Frame) (y : Nat) (rng : Nat) :
    (Frame × Frame × Nat × Nat) × Nat :=
  ((⟨X.cols, Nat.pair X.id (Nat.pair rng 0)⟩,
    ⟨X.cols, Nat.pair X.id (Nat.pair rng 1)⟩,
    Nat.pair y (Nat.pair rng 0),
    Nat.pair y (Nat.pair rng 1)), rng + 1)

/-- The function `random_forest_fit_predict` from the notebook: fit one randomized ensemble
(consuming one draw of the randomness stream), return the training score, the
held-out loss, and the importance frame indexed by the training columns. -/
def random_forest_fit_predict (O : RFOracle) (X_train X_test : Frame)
    (y_train y_test : Nat) (n_estimators max_depth : Nat) (rng : Nat) :
    (ℚ × ℚ × ImpFrame) × Nat :=
  let call : FitCall :=
    ⟨X_train.cols, X_train.id, X_test.id, y_train, y_test,
      n_estimators, max_depth, rng⟩
  let training_loss := O.score call
  let validation_loss := O.mse call
  let feature_importances : ImpFrame :=
    ⟨X_train.cols, X_train.cols.map (O.imp call)⟩
  ((training_loss, validation_loss, feature_importances), rng + 1)

/-! ### The Stabilizer: `avg_random_forest_fit_predict` -/

/-- Python's `/` on numbers: raises `ZeroDivisionError` when the divisor is
zero. -/
def pydiv (a b : ℚ) : Except String ℚ :=
  if b = 0 then .error "ZeroDivisionError: division by zero" else .ok (a / b)

/-- The `for _ in range(n_iterations)` loop of `avg_random_forest_fit_predict`:
accumulates the running totals `(total_training_loss, total_validation_loss,
total_feature_importances)` over repeated fits. -/
def avg_loop (O : RFOracle) (X_train X_test : Frame) (y_train y_test : Nat)
    (n_estimators max_depth : Nat) :
    Nat → ℚ × ℚ × List ℚ → Nat → (ℚ × ℚ × List ℚ) × Nat
  | 0, totals, rng => (totals, rng)
  | n + 1, (ttl, tvl, tfi), rng =>
    let r := random_forest_fit_predict O X_train X_test y_train y_test
      n_estimators max_depth rng
    avg_loop O X_train X_test y_train y_test n_estimators max_depth n
      (ttl + r.1.1, tvl + r.1.2.1, List.zipWith (· + ·) tfi r.1.2.2.values) r.2

/-- The function `avg_random_forest_fit_predict` from the notebook: zero-initialized running
totals, `n_iterations` fits, then averaging by division; the first division
`total_training_loss / n_iterations` raises `ZeroDivisionError` when
`n_iterations = 0`. -/
def avg_random_forest_fit_predict (O : RFOracle) (X_train X_test : Frame)
    (y_train y_test : Nat) (n_estimators max_depth n_iterations : Nat)
    (rng : Nat) : Except String ((ℚ × ℚ × ImpFrame) × Nat) :=
  let start : ℚ × ℚ × List ℚ := (0, 0, List.replicate X_train.cols.length 0)
  match avg_loop O X_train X_test y_train y_test n_estimators max_depth
      n_iterations start rng with
  | ((ttl, tvl, tfi), rng') =>
    match pydiv ttl n_iterations with
    | .error e => .error e
    | .ok avg_tl =>
      match pydiv tvl n_iterations with
      | .error e => .error e
      | .ok avg_vl =>
        .ok ((avg_tl, avg_vl,
          ⟨X_train.cols, tfi.map (· / (n_iterations : ℚ))⟩), rng')

/-! ### Stabilizing over data splits: `multisplit_avg_random_forest_fit_predict`

In addition to its result, the embedding of the multisplit loop returns a log
(`List Nat`): the randomness draw consumed by each internal
`train_test_split` call.  The draw identifies the local train/validation
partition handed to `avg_random_forest_fit_predict` in that iteration, so the
log is the sequence of partitions on which the Stabilizer was invoked. -/

/-- The `for _ in range(n_dataset_iterations)` loop of
`multisplit_avg_random_forest_fit_predict`: each iteration draws a fresh
80/20 `train_test_split` of the given training data, runs the Stabilizer on it,
and adds the three outputs to the running totals. -/
def multisplit_loop (O : RFOracle) (X_train : Frame) (y_train : Nat)
    (n_estimators max_depth n_forest_iterations : Nat) :
    Nat → ℚ × ℚ × List ℚ → List Nat → Nat →
      Except String ((ℚ × ℚ × List ℚ) × List Nat × Nat)
  | 0, totals, log, rng => .ok (totals, log, rng)
  | n + 1, (ttl, tvl, tfi), log, rng =>
    let s := train_test_split X_train y_train rng
    let X_train_local := s.1.1
    let X_val_local := s.1.2.1
    let y_train_local := s.1.2.2.1
    let y_val_local := s.1.2.2.2
    match avg_random_forest_fit_predict O X_train_local X_val_local
        y_train_local y_val_local n_estimators max_depth n_forest_iterations
        s.2 with
    | .error e => .error e
    | .ok ((training_loss, validation_loss, feature_importances), rng') =>
      multisplit_loop O X_train y_train n_estimators max_depth
        n_forest_iterations n
        (ttl + training_loss, tvl + validation_loss,
          List.zipWith (· + ·) tfi feature_importances.values)
        (log ++ [rng]) rng'

/-- The function `multisplit_avg_random_forest_fit_predict` from the notebook: averages the
Stabilizer's outputs over `n_dataset_iterations` fresh train/validation
splits of the same training data. -/
def multisplit_avg_random_forest_fit_predict (O : RFOracle) (X_train : Frame)
    (y_train : Nat)
    (n_estimators max_depth n_forest_iterations n_dataset_iterations : Nat)
    (rng : Nat) : Except String ((ℚ × ℚ × ImpFrame) × List Nat × Nat) :=
  let start : ℚ × ℚ × List ℚ := (0, 0, List.replicate X_train.cols.length 0)
  match multisplit_loop O X_train y_train n_estimators max_depth
      n_forest_iterations n_dataset_iterations start [] rng with
  | .error e => .error e
  | .ok ((ttl, tvl, tfi), log, rng') =>
    match pydiv ttl n_dataset_iterations with
    | .error e => .error e
    | .ok avg_tl =>
      match pydiv tvl n_dataset_iterations with
      | .error e => .error e
      | .ok avg_vl =>
        .ok ((avg_tl, avg_vl,
          ⟨X_train.cols, tfi.map (· / (n_dataset_iterations : ℚ))⟩),
          log, rng')

/-! ### `np.argmin` -/

/-- The minimum of a list of rationals (`0` on the empty list, which the code
never queries). -/
def listMin : List ℚ → ℚ
  | [] => 0
  | [x] => x
  | x :: y :: xs => min x (listMin (y :: xs))

/-- Model of `np.argmin`: the index of the first occurrence of the minimum
value. -/
def argmin : List ℚ → Nat
  | [] => 0
  | [_] => 0
  | x :: y :: xs => if x ≤ listMin (y :: xs) then 0 else argmin (y :: xs) + 1

/-! ### Drop records -/

/-- The drop record: an insertion-ordered association list modelling the Python
dict from feature name to the list of recorded drop-round values. -/
abbrev DropRecord := List (String × List Nat)

/-- Model of `record[f].append(v)` on a dict modelled as an ordered association list:
append `v` to the value list of every entry named `f` (the records built by the
notebook have pairwise-distinct keys, so at most one entry changes). -/
def record_append (record : DropRecord) (f : String) (v : Nat) : DropRecord :=
  record.map (fun e => if e.1 = f then (e.1, e.2 ++ [v]) else e)

/-- The value list stored under key `c` (`[]` when the key is absent). -/
def lookupList (record : DropRecord) (c : String) : List Nat :=
  match record with
  | [] => []
  | e :: rest => if e.1 = c then e.2 else lookupList rest c

/-- Apply a sequence of `(feature, value)` drop events to a record, in order. -/
def apply_drops (record : DropRecord) : List (String × Nat) → DropRecord
  | [] => record
  | (f, v) :: rest => apply_drops (record_append record f v) rest

/-! ### The Elimination Loop: `drop_feature_experiment` -/

/-- The external world of `drop_feature_experiment`: the preprocessed frame and
label vector that `load_dataset("responder.csv")` followed by
`preprocess_dataset` produce from the input file. -/
structure Env where
  dataset_preprocessed : Frame
  labels : Nat
deriving DecidableEq, Repr

/-- The `while len(feature_names) >= 1` loop of `drop_feature_experiment`.
State: the active feature list, the drop record, the round results
(`results.append((training_loss, validation_loss, feature_names))`; the value
recorded here is the feature list passed to `multisplit` in this round — in
Python `results` stores a reference to the list that is mutated afterwards, but
`results` is a dead local and only the number of rounds is ever observable),
the accumulated local-split log, and the randomness stream.  Each round runs
`multisplit` on the active columns with the notebook's literal hyperparameters
`n_estimators=20, max_depth=1, n_forest_iterations=5, n_dataset_iterations=5`,
removes the feature at `np.argmin` of the averaged importances (`list.remove`
deletes the first occurrence), and records the active-list size after
removal. -/
def drop_loop (O : RFOracle) (X_train : Frame) (y_train : Nat) :
    List String → DropRecord → List (ℚ × ℚ × List String) → List Nat → Nat →
      Except String (DropRecord × List (ℚ × ℚ × List String) × List Nat × Nat)
  | feature_names, record, results, log, rng =>
    if h1 : feature_names.length ≥ 1 then
      match multisplit_avg_random_forest_fit_predict O
          ⟨feature_names, X_train.id⟩ y_train 20 1 5 5 rng with
      | .error e => .error e
      | .ok ((training_loss, validation_loss, feature_importances), slog,
          rng') =>
        if hv : feature_importances.values = [] then
          .error "ValueError: attempt to get argmin of an empty sequence"
        else
          if hvi : argmin feature_importances.values < feature_names.length
          then
            let least_important_feature :=
              feature_names.get ⟨argmin feature_importances.values, hvi⟩
            drop_loop O X_train y_train
              (feature_names.erase least_important_feature)
              (record_append record least_important_feature
                (feature_names.erase least_important_feature).length)
              (results ++ [(training_loss, validation_loss, feature_names)])
              (log ++ slog) rng'
          else .error "IndexError: list index out of range"
    else .ok (record, results, log, rng)
termination_by feature_names => feature_names.length
decreasing_by
  have hmem : least_important_feature ∈ feature_names :=
    feature_names.get_mem _ hvi
  rw [List.length_erase_of_mem hmem]
  omega

/-- The function `drop_feature_experiment` from the notebook: load and preprocess the data
(the `Env` parameter), split once into `X_train`/`X_test` (consuming one
randomness draw; `X_test`/`y_test` are never used afterwards), initialize
`feature_drop_iterations = {feature: [] for feature in X_train.columns}`, and
run the elimination loop. -/
def drop_feature_experiment (O : RFOracle) (env : Env) (rng : Nat) :
    Except String (DropRecord × List (ℚ × ℚ × List String) × List Nat × Nat) :=
  let s := train_test_split env.dataset_preprocessed env.labels rng
  let X_train := s.1.1
  let y_train := s.1.2.2.1
  let feature_names := X_train.cols
  let feature_drop_iterations : DropRecord :=
    feature_names.map (fun feature => (feature, []))
  drop_loop O X_train y_train feature_names feature_drop_iterations [] [] s.2

/-! ### The Repeated-Elimination Aggregator: `avg_drop_feature_experiment` -/

/-- One `feature_drop_counts` update from one run's record: for each
`(feature, iteration)` item, `extend` the existing list when the key is
present, otherwise insert the key (Python dicts append new keys at the end). -/
def merge_counts (acc : DropRecord) (rec : DropRecord) : DropRecord :=
  rec.foldl
    (fun a fi =>
      if (a.map Prod.fst).contains fi.1 then
        a.map (fun e => if e.1 = fi.1 then (e.1, e.2 ++ fi.2) else e)
      else a ++ [fi])
    acc

/-- The `for i in range(n_runs)` loop of `avg_drop_feature_experiment`,
threading the randomness stream through consecutive runs. -/
def avg_drop_loop (O : RFOracle) (env : Env) :
    Nat → DropRecord → Nat → Except String (DropRecord × Nat)
  | 0, acc, rng => .ok (acc, rng)
  | n + 1, acc, rng =>
    match drop_feature_experiment O env rng with
    | .error e => .error e
    | .ok (rec, _results, _log, rng') =>
      avg_drop_loop O env n (merge_counts acc rec) rng'

/-- The function `avg_drop_feature_experiment` from the notebook: run the elimination
experiment `n_runs` times, accumulating `feature_drop_counts` across runs. -/
def avg_drop_feature_experiment (O : RFOracle) (env : Env) (n_runs : Nat)
    (rng : Nat) : Except String (DropRecord × Nat) :=
  avg_drop_loop O env n_runs [] rng

/-- The randomness-stream state at the start of run `i` when
`avg_drop_feature_experiment` starts from `rng`. -/
def run_rng (O : RFOracle) (env : Env) (rng : Nat) : Nat → Nat
  | 0 => rng
  | i + 1 =>
    match drop_feature_experiment O env (run_rng O env rng i) with
    | .ok (_, _, _, rng') => rng'
    | .error _ => 0

/-- The drop record produced by run `i` of `avg_drop_feature_experiment`. -/
def run_record (O : RFOracle) (env : Env) (rng : Nat) (i : Nat) : DropRecord :=
  match drop_feature_experiment O env (run_rng O env rng i) with
  | .ok (rec, _, _, _) => rec
  | .error _ => []

/-! ### Projections for evaluating concrete runs -/

/-- The drop record of an elimination run (`[]` when the run raised). -/
def dropRecordOf
    (e : Except String (DropRecord × List (ℚ × ℚ × List String) × List Nat ×
      Nat)) : DropRecord :=
  match e with
  | .ok (rec, _, _, _) => rec
  | .error _ => []

/-- The per-round results of an elimination run (`[]` when the run raised). -/
def dropResultsOf
    (e : Except String (DropRecord × List (ℚ × ℚ × List String) × List Nat ×
      Nat)) : List (ℚ × ℚ × List String) :=
  match e with
  | .ok (_, results, _, _) => results
  | .error _ => []

/-- The local-split log of an elimination run (`[]` when the run raised). -/
def dropLogOf
    (e : Except String (DropRecord × List (ℚ × ℚ × List String) × List Nat ×
      Nat)) : List Nat :=
  match e with
  | .ok (_, _, log, _) => log
  | .error _ => []

/-- Whether an elimination run raised an exception. -/
def dropRaised
    (e : Except String (DropRecord × List (ℚ × ℚ × List String) × List Nat ×
      Nat)) : Bool :=
  match e with
  | .ok _ => false
  | .error _ => true

/-- A concrete oracle for evaluating the pipeline on explicit inputs: every
fit reports score `0`, loss `0`, and importance `0` for every feature. -/
def zeroOracle : RFOracle where
  score := fun _ => 0
  mse := fun _ => 0
  imp := fun _ _ => 0

/-- A concrete two-feature environment for evaluating the pipeline. -/
def envAB : Env := ⟨⟨["a", "b"], 0⟩, 0⟩

/-- A concrete zero-feature environment. -/
def envEmpty : Env := ⟨⟨[], 0⟩, 0⟩

/-! ### Properties of `listMin` and `argmin` -/

theorem listMin_le_of_mem (l : List ℚ) : ∀ x ∈ l, listMin l ≤ x := by
  induction l with
  | nil => intro x hx; cases hx
  | cons a t ih =>
    intro x hx
    cases t with
    | nil =>
      rcases List.mem_singleton.mp hx with rfl
      simp [listMin]
    | cons b u =>
      rcases List.mem_cons.mp hx with rfl | h
      · exact min_le_left _ _
      · exact le_trans (min_le_right _ _) (ih x h)

theorem argmin_lt_length (l : List ℚ) (h : l ≠ []) : argmin l < l.length := by
  induction l with
  | nil => exact absurd rfl h
  | cons a t ih =>
    cases t with
    | nil => simp [argmin]
    | cons b u =>
      by_cases hc : a ≤ listMin (b :: u)
      · simp [argmin, hc]
      · have h2 := ih (by simp)
        simp only [List.length_cons] at h2
        simp only [argmin, if_neg hc, List.length_cons]
        omega

theorem get_argmin_eq_listMin (l : List ℚ) (hm : argmin l < l.length) :
    l.get ⟨argmin l, hm⟩ = listMin l := by
  induction l with
  | nil => simp at hm
  | cons a t ih =>
    cases t with
    | nil => simp [argmin, listMin]
    | cons b u =>
      by_cases hc : a ≤ listMin (b :: u)
      · simp [argmin, listMin, hc, min_eq_left]
      · have hm2 : argmin (b :: u) < (b :: u).length :=
          argmin_lt_length (b :: u) (by simp)
        have ih2 := ih hm2
        simp only [argmin, if_neg hc] at hm ⊢
        simp only [List.get_eq_getElem, List.getElem_cons_succ]
        simp only [List.get_eq_getElem] at ih2
        rw [ih2]
        simp only [listMin]
        exact (min_eq_right (le_of_lt (lt_of_not_le hc))).symm

theorem get_argmin_le (l : List ℚ) (hm : argmin l < l.length) (j : Nat)
    (hj : j < l.length) : l.get ⟨argmin l, hm⟩ ≤ l.get ⟨j, hj⟩ := by
  rw [get_argmin_eq_listMin l hm]
  exact listMin_le_of_mem l _ (l.get_mem j hj)

theorem get_argmin_first (l : List ℚ) (hm : argmin l < l.length) :
    ∀ (j : Nat) (hj : j < l.length), j < argmin l →
      l.get ⟨argmin l, hm⟩ < l.get ⟨j, hj⟩ := by
  induction l with
  | nil => simp at hm
  | cons a t ih =>
    intro j hj hlt
    cases t with
    | nil => simp [argmin] at hlt
    | cons b u =>
      by_cases hc : a ≤ listMin (b :: u)
      · simp [argmin, hc] at hlt
      · have hm2 : argmin (b :: u) < (b :: u).length :=
          argmin_lt_length (b :: u) (by simp)
        simp only [argmin, if_neg hc] at hm hlt ⊢
        simp only [List.get_eq_getElem, List.getElem_cons_succ]
        cases j with
        | zero =>
          have hval := get_argmin_eq_listMin (b :: u) hm2
          simp only [List.get_eq_getElem] at hval
          rw [hval]
          simpa using lt_of_not_le hc
        | succ j' =>
          have hj2 : j' < (b :: u).length := by
            simp only [List.length_cons] at hj ⊢; omega
          have := ih hm2 j' hj2 (by omega)
          simpa using this

/-! ### Properties of the Stabilizer -/

theorem zipWith_add_replicate_zero (l : List ℚ) :
    List.zipWith (· + ·) (List.replicate l.length 0) l = l := by
  induction l with
  | nil => rfl
  | cons x xs ih => simpa [List.replicate] using ih

theorem avg_loop_spec (O : RFOracle) (X_train X_test : Frame)
    (y_train y_test : Nat) (n_estimators max_depth : Nat) :
    ∀ (n : Nat) (ttl tvl : ℚ) (tfi : List ℚ) (rng : Nat),
      tfi.length = X_train.cols.length →
      ∃ a b c, avg_loop O X_train X_test y_train y_test n_estimators max_depth
          n (ttl, tvl, tfi) rng = ((a, b, c), rng + n) ∧
        c.length = X_train.cols.length := by
  intro n
  induction n with
  | zero => intro ttl tvl tfi rng hlen; exact ⟨ttl, tvl, tfi, rfl, hlen⟩
  | succ n ih =>
    intro ttl tvl tfi rng hlen
    have hstep :
        (List.zipWith (· + ·) tfi
          (random_forest_fit_predict O X_train X_test y_train y_test
            n_estimators max_depth rng).1.2.2.values).length =
          X_train.cols.length := by
      simp [random_forest_fit_predict, List.length_zipWith, hlen]
    obtain ⟨a, b, c, heq, hclen⟩ := ih (ttl +
        (random_forest_fit_predict O X_train X_test y_train y_test
          n_estimators max_depth rng).1.1)
      (tvl + (random_forest_fit_predict O X_train X_test y_train y_test
          n_estimators max_depth rng).1.2.1)
      (List.zipWith (· + ·) tfi
        (random_forest_fit_predict O X_train X_test y_train y_test
          n_estimators max_depth rng).1.2.2.values)
      (rng + 1) hstep
    refine ⟨a, b, c, ?_, hclen⟩
    show avg_loop O X_train X_test y_train y_test n_estimators max_depth
        (n + 1) (ttl, tvl, tfi) rng = ((a, b, c), rng + (n + 1))
    rw [avg_loop]
    have hr : (random_forest_fit_predict O X_train X_test y_train y_test
        n_estimators max_depth rng).2 = rng + 1 := rfl
    rw [hr, heq]
    ring_nf

theorem avg_ok (O : RFOracle) (X_train X_test : Frame) (y_train y_test : Nat)
    (n_estimators max_depth n : Nat) (rng : Nat) (hn : n ≠ 0) :
    ∃ tl vl vals,
      avg_random_forest_fit_predict O X_train X_test y_train y_test
          n_estimators max_depth n rng =
        .ok ((tl, vl, ⟨X_train.cols, vals⟩), rng + n) ∧
      vals.length = X_train.cols.length := by
  obtain ⟨a, b, c, heq, hclen⟩ :=
    avg_loop_spec O X_train X_test y_train y_test n_estimators max_depth n
      0 0 (List.replicate X_train.cols.length 0) rng (by simp)
  have hcast : ((n : ℚ)) ≠ 0 := Nat.cast_ne_zero.mpr hn
  refine ⟨a / n, b / n, c.map (· / (n : ℚ)), ?_, by simp [hclen]⟩
  unfold avg_random_forest_fit_predict
  dsimp only
  rw [heq]
  simp [pydiv, hcast]

/-- Claim C10: calling `avg_random_forest_fit_predict` with `n_iterations = 0`
leaves the fitting loop body unexecuted (the loop runs over `range 0`), and the
first averaging step divides the zero-initialized total by zero, so the call
raises `ZeroDivisionError` instead of returning averaged results. -/
theorem avg_zero_iterations_division_by_zero (O : RFOracle)
    (X_train X_test : Frame) (y_train y_test : Nat)
    (n_estimators max_depth : Nat) (rng : Nat) :
    avg_random_forest_fit_predict O X_train X_test y_train y_test
        n_estimators max_depth 0 rng =
      .error "ZeroDivisionError: division by zero" := by
  simp [avg_random_forest_fit_predict, avg_loop, pydiv]

/-- Claim C6: the Stabilizer invoked with `n_iterations = 1` returns exactly
the output of a single `random_forest_fit_predict` call on the same inputs,
with the same hyperparameters and the same state of the randomness stream:
averaging one sample is the identity. -/
theorem stabilizer_one_iteration_eq_single_fit (O : RFOracle)
    (X_train X_test : Frame) (y_train y_test : Nat)
    (n_estimators max_depth : Nat) (rng : Nat) :
    avg_random_forest_fit_predict O X_train X_test y_train y_test
        n_estimators max_depth 1 rng =
      .ok (random_forest_fit_predict O X_train X_test y_train y_test
        n_estimators max_depth rng) := by
  have hvals : (random_forest_fit_predict O X_train X_test y_train y_test
      n_estimators max_depth rng).1.2.2.values.length = X_train.cols.length :=
    by simp [random_forest_fit_predict]
  have hloop : avg_loop O X_train X_test y_train y_test n_estimators max_depth
      1 (0, 0, List.replicate X_train.cols.length 0) rng =
      (((random_forest_fit_predict O X_train X_test y_train y_test
          n_estimators max_depth rng).1.1,
        (random_forest_fit_predict O X_train X_test y_train y_test
          n_estimators max_depth rng).1.2.1,
        (random_forest_fit_predict O X_train X_test y_train y_test
          n_estimators max_depth rng).1.2.2.values), rng + 1) := by
    show avg_loop O X_train X_test y_train y_test n_estimators max_depth
      (0 + 1) (0, 0, List.replicate X_train.cols.length 0) rng = _
    rw [avg_loop, avg_loop]
    rw [← hvals, zipWith_add_replicate_zero]
    simp [random_forest_fit_predict]
  unfold avg_random_forest_fit_predict
  dsimp only
  rw [hloop]
  simp [pydiv, div_one, random_forest_fit_predict]

/-! ### Properties of the multisplit loop -/

theorem multisplit_loop_spec (O : RFOracle) (X_train : Frame) (y_train : Nat)
    (n_estimators max_depth nf : Nat) (hnf : nf ≠ 0) :
    ∀ (n : Nat) (ttl tvl : ℚ) (tfi : List ℚ) (log : List Nat) (rng : Nat),
      tfi.length = X_train.cols.length →
      ∃ a b c, multisplit_loop O X_train y_train n_estimators max_depth nf n
          (ttl, tvl, tfi) log rng =
        .ok ((a, b, c),
          log ++ (List.range n).map (fun i => rng + i * (1 + nf)),
          rng + n * (1 + nf)) ∧
        c.length = X_train.cols.length := by
  intro n
  induction n with
  | zero =>
    intro ttl tvl tfi log rng hlen
    exact ⟨ttl, tvl, tfi, by simp [multisplit_loop], hlen⟩
  | succ n ih =>
    intro ttl tvl tfi log rng hlen
    rw [multisplit_loop]
    dsimp only [train_test_split]
    obtain ⟨tl, vl, vals, heq, hvlen⟩ :=
      avg_ok O ⟨X_train.cols, Nat.pair X_train.id (Nat.pair rng 0)⟩
        ⟨X_train.cols, Nat.pair X_train.id (Nat.pair rng 1)⟩
        (Nat.pair y_train (Nat.pair rng 0)) (Nat.pair y_train (Nat.pair rng 1))
        n_estimators max_depth nf (rng + 1) hnf
    dsimp only at heq
    rw [heq]
    dsimp only
    have hlen2 : (List.zipWith (· + ·) tfi vals).length =
        X_train.cols.length := by
      simp only [List.length_zipWith, hlen]
      dsimp only at hvlen
      omega
    obtain ⟨a, b, c, heq2, hclen⟩ := ih (ttl + tl) (tvl + vl)
      (List.zipWith (· + ·) tfi vals) (log ++ [rng]) (rng + 1 + nf) hlen2
    refine ⟨a, b, c, ?_, hclen⟩
    rw [heq2]
    have hlog : (log ++ [rng]) ++
        (List.range n).map (fun i => rng + 1 + nf + i * (1 + nf)) =
        log ++ (List.range (n + 1)).map (fun i => rng + i * (1 + nf)) := by
      rw [List.append_assoc, List.singleton_append, List.range_succ_eq_map,
        List.map_cons, List.map_map]
      congr 2
      · simp
      · apply List.map_congr_left
        intro i _
        simp only [Function.comp, Nat.succ_eq_add_one]
        ring
    rw [hlog]
    have hr : rng + 1 + nf + n * (1 + nf) = rng + (n + 1) * (1 + nf) := by ring
    rw [hr]

theorem multisplit_ok (O : RFOracle) (X_train : Frame) (y_train : Nat)
    (n_estimators max_depth nf nd : Nat) (rng : Nat) (hnf : nf ≠ 0)
    (hnd : nd ≠ 0) :
    ∃ tl vl vals,
      multisplit_avg_random_forest_fit_predict O X_train y_train n_estimators
          max_depth nf nd rng =
        .ok ((tl, vl, ⟨X_train.cols, vals⟩),
          (List.range nd).map (fun i => rng + i * (1 + nf)),
          rng + nd * (1 + nf)) ∧
      vals.length = X_train.cols.length := by
  obtain ⟨a, b, c, heq, hclen⟩ :=
    multisplit_loop_spec O X_train y_train n_estimators max_depth nf hnf nd
      0 0 (List.replicate X_train.cols.length 0) [] rng (by simp)
  have hcast : ((nd : ℚ)) ≠ 0 := Nat.cast_ne_zero.mpr hnd
  refine ⟨a / nd, b / nd, c.map (· / (nd : ℚ)), ?_, by simp [hclen]⟩
  unfold multisplit_avg_random_forest_fit_predict
  dsimp only
  rw [heq]
  simp [pydiv, hcast]

/-! ### Properties of drop records -/

/-- All recorded values in a drop record, in entry order. -/
def flatten_record (record : DropRecord) : List Nat :=
  (record.map (fun e => e.2)).flatten

theorem record_append_keys (record : DropRecord) (f : String) (v : Nat) :
    (record_append record f v).map Prod.fst = record.map Prod.fst := by
  simp only [record_append, List.map_map]
  apply List.map_congr_left
  intro e _
  by_cases h : e.1 = f <;> simp [h]

theorem record_append_of_not_mem (record : DropRecord) (f : String) (v : Nat)
    (h : ∀ e ∈ record, e.1 ≠ f) : record_append record f v = record := by
  unfold record_append
  have : ∀ e ∈ record, (if e.1 = f then (e.1, e.2 ++ [v]) else e) = e := by
    intro e he
    rw [if_neg (h e he)]
  rw [List.map_congr_left this]
  simp

theorem apply_drops_keys (record : DropRecord) :
    ∀ drops, (apply_drops record drops).map Prod.fst =
      record.map Prod.fst := by
  intro drops
  induction drops generalizing record with
  | nil => rfl
  | cons p rest ih =>
    rw [show apply_drops record (p :: rest) =
      apply_drops (record_append record p.1 p.2) rest from rfl]
    rw [ih, record_append_keys]

theorem apply_drops_eq (record : DropRecord) :
    ∀ drops, apply_drops record drops = record.map (fun e =>
      (e.1, e.2 ++ (drops.filter (fun p => decide (p.1 = e.1))).map
        Prod.snd)) := by
  intro drops
  induction drops generalizing record with
  | nil => simp [apply_drops]
  | cons p rest ih =>
    rw [show apply_drops record (p :: rest) =
      apply_drops (record_append record p.1 p.2) rest from rfl]
    rw [ih, record_append, List.map_map]
    apply List.map_congr_left
    intro e _
    by_cases he : e.1 = p.1
    · simp [Function.comp, he, List.filter_cons]
    · have : ¬ (p.1 = e.1) := fun h => he h.symm
      simp [Function.comp, if_neg he, List.filter_cons, this]

theorem lookupList_map_form (c : String) :
    ∀ (record : DropRecord)
      (F : String → List Nat → List Nat), c ∈ record.map Prod.fst →
      lookupList (record.map (fun e => (e.1, F e.1 e.2))) c =
        F c (lookupList record c) := by
  intro record F hc
  induction record with
  | nil => simp at hc
  | cons e rest ih =>
    by_cases he : e.1 = c
    · subst he
      simp [lookupList]
    · have hc2 : c ∈ rest.map Prod.fst := by
        rcases List.mem_map.mp hc with ⟨p, hp, hpc⟩
        rcases List.mem_cons.mp hp with rfl | hp2
        · exact absurd hpc he
        · exact List.mem_map.mpr ⟨p, hp2, hpc⟩
      simp only [List.map_cons, lookupList, if_neg he]
      exact ih hc2

theorem lookupList_apply_drops (record : DropRecord)
    (drops : List (String × Nat)) (c : String)
    (hc : c ∈ record.map Prod.fst) :
    lookupList (apply_drops record drops) c =
      lookupList record c ++
        (drops.filter (fun p => decide (p.1 = c))).map Prod.snd := by
  rw [apply_drops_eq]
  exact lookupList_map_form c record
    (fun k l => l ++ (drops.filter (fun p => decide (p.1 = k))).map Prod.snd)
    hc

theorem filter_key_of_not_mem (drops : List (String × Nat)) (c : String)
    (h : c ∉ drops.map Prod.fst) :
    drops.filter (fun p => decide (p.1 = c)) = [] := by
  induction drops with
  | nil => rfl
  | cons p rest ih =>
    have h1 : p.1 ≠ c := by
      intro he
      exact h (List.mem_map.mpr ⟨p, List.mem_cons_self p rest, he⟩)
    have h2 : c ∉ rest.map Prod.fst := by
      intro hm
      rcases List.mem_map.mp hm with ⟨q, hq, hqc⟩
      exact h (List.mem_map.mpr ⟨q, List.mem_cons_of_mem p hq, hqc⟩)
    simp [List.filter_cons, h1, ih h2]

theorem filter_key_nodup_of_mem (drops : List (String × Nat)) (c : String)
    (w : Nat) (hnd : (drops.map Prod.fst).Nodup) (hm : (c, w) ∈ drops) :
    (drops.filter (fun p => decide (p.1 = c))).map Prod.snd = [w] := by
  induction drops with
  | nil => simp at hm
  | cons p rest ih =>
    simp only [List.map_cons, List.nodup_cons] at hnd
    rcases List.mem_cons.mp hm with rfl | hm2
    · have hrest : c ∉ rest.map Prod.fst := hnd.1
      simp [List.filter_cons, filter_key_of_not_mem rest c hrest]
    · have hp1 : p.1 ≠ c := by
        intro he
        exact hnd.1 (he ▸ List.mem_map.mpr ⟨(c, w), hm2, rfl⟩)
      simp only [List.filter_cons, decide_eq_true_eq, if_neg hp1]
      exact ih hnd.2 hm2

theorem mem_keys_exists_pair (drops : List (String × Nat)) (c : String)
    (h : c ∈ drops.map Prod.fst) : ∃ w, (c, w) ∈ drops := by
  rcases List.mem_map.mp h with ⟨p, hp, hpc⟩
  exact ⟨p.2, by rwa [show (c, p.2) = p from by rw [← hpc]]⟩

theorem flatten_record_append_perm (record : DropRecord) (f : String)
    (v : Nat) (hnd : (record.map Prod.fst).Nodup)
    (hf : f ∈ record.map Prod.fst) :
    (flatten_record (record_append record f v)).Perm
      (flatten_record record ++ [v]) := by
  induction record with
  | nil => simp at hf
  | cons e rest ih =>
    simp only [List.map_cons, List.nodup_cons] at hnd
    by_cases he : e.1 = f
    · have hrest : record_append rest f v = rest := by
        apply record_append_of_not_mem
        intro x hx hxf
        exact hnd.1 (by rw [he]; exact List.mem_map.mpr ⟨x, hx, hxf⟩)
      simp only [record_append, List.map_cons, if_pos he]
      rw [show rest.map (fun e => if e.1 = f then (e.1, e.2 ++ [v]) else e) =
        record_append rest f v from rfl, hrest]
      simp only [flatten_record, List.map_cons, List.flatten_cons]
      rw [List.append_assoc, List.append_assoc]
      exact List.Perm.append_left e.2 List.perm_append_comm
    · have hf2 : f ∈ rest.map Prod.fst := by
        rcases List.mem_map.mp hf with ⟨p, hp, hpf⟩
        rcases List.mem_cons.mp hp with rfl | hp2
        · exact absurd hpf he
        · exact List.mem_map.mpr ⟨p, hp2, hpf⟩
      simp only [record_append, List.map_cons, if_neg he]
      rw [show rest.map (fun e => if e.1 = f then (e.1, e.2 ++ [v]) else e) =
        record_append rest f v from rfl]
      simp only [flatten_record, List.map_cons, List.flatten_cons]
      have hih := ih hnd.2 hf2
      simp only [flatten_record] at hih
      rw [List.append_assoc]
      exact List.Perm.append_left e.2 hih

theorem flatten_apply_drops_perm (record : DropRecord) :
    ∀ (drops : List (String × Nat)),
      (record.map Prod.fst).Nodup →
      (∀ p ∈ drops, p.1 ∈ record.map Prod.fst) →
      (flatten_record (apply_drops record drops)).Perm
        (flatten_record record ++ drops.map Prod.snd) := by
  intro drops
  induction drops generalizing record with
  | nil => simp [apply_drops]
  | cons p rest ih =>
    intro hnd hsub
    rw [show apply_drops record (p :: rest) =
      apply_drops (record_append record p.1 p.2) rest from rfl]
    have hk := record_append_keys record p.1 p.2
    have h1 := ih (record_append record p.1 p.2) (by rw [hk]; exact hnd)
      (by intro q hq; rw [hk]; exact hsub q (List.mem_cons_of_mem p hq))
    have h2 := flatten_record_append_perm record p.1 p.2 hnd
      (hsub p (List.mem_cons_self p rest))
    have h4 : (flatten_record (record_append record p.1 p.2) ++
        rest.map Prod.snd).Perm
        ((flatten_record record ++ [p.2]) ++ rest.map Prod.snd) :=
      List.Perm.append_right _ h2
    have h5 := h1.trans h4
    have hfin : (flatten_record record ++ [p.2]) ++ rest.map Prod.snd =
        flatten_record record ++ (p :: rest).map Prod.snd := by
      rw [List.append_assoc]; rfl
    rwa [hfin] at h5

/-! ### The master characterization of the elimination loop -/

theorem getLast?_cons_ne_nil {α : Type _} (a : α) (l : List α) (h : l ≠ []) :
    (a :: l).getLast? = l.getLast? := by
  cases l with
  | nil => exact absurd rfl h
  | cons b t => exact List.getLast?_cons_cons

/-- The multisplit call as the elimination loop issues it, with the notebook's
literal hyperparameters: five local splits, each split consuming one draw and
each Stabilizer invocation five more, thirty draws per round in total. -/
theorem multisplit_20_1_5_5 (O : RFOracle) (X_train : Frame) (y_train : Nat)
    (rng : Nat) :
    ∃ tl vl vals,
      multisplit_avg_random_forest_fit_predict O X_train y_train 20 1 5 5
          rng =
        .ok ((tl, vl, ⟨X_train.cols, vals⟩),
          (List.range 5).map (fun i => rng + 6 * i), rng + 30) ∧
      vals.length = X_train.cols.length := by
  obtain ⟨tl, vl, vals, hms0, hvlen⟩ :=
    multisplit_ok O X_train y_train 20 1 5 5 rng (by norm_num) (by norm_num)
  refine ⟨tl, vl, vals, ?_, hvlen⟩
  rw [hms0]
  have hmap : (List.range 5).map (fun i => rng + i * (1 + 5)) =
      (List.range 5).map (fun i => rng + 6 * i) :=
    List.map_congr_left (fun i _ => by ring)
  rw [hmap]

/-- One elimination run over active features `fn` always succeeds and is
described by a sequence `drops` of `(feature, recorded value)` events: the run
performs `fn.length` rounds; its final record is the input record with the
events applied; every active feature is dropped exactly once; the recorded
values are `fn.length - 1, …, 0` in drop order; each round logs five local
splits (the notebook's `n_dataset_iterations = 5`), each consuming six
randomness draws (one split plus `n_forest_iterations = 5` fits); the last
round runs on a single feature which is recorded with value `0`. -/
theorem drop_loop_spec (O : RFOracle) (X_train : Frame) (y_train : Nat) :
    ∀ (k : Nat) (fn : List String), fn.length = k →
    ∀ (record : DropRecord) (results : List (ℚ × ℚ × List String))
      (log : List Nat) (rng : Nat),
      ∃ (drops : List (String × Nat)) (res2 : List (ℚ × ℚ × List String)),
        drop_loop O X_train y_train fn record results log rng =
          .ok (apply_drops record drops, results ++ res2,
            log ++ (List.range (5 * k)).map (fun i => rng + 6 * i),
            rng + 30 * k) ∧
        (drops.map Prod.fst).Perm fn ∧
        drops.map Prod.snd = (List.range k).reverse ∧
        res2.map (fun r => r.2.2.length) =
          (List.range k).reverse.map (fun i => i + 1) ∧
        (fn ≠ [] → ∃ c q1 q2, res2.getLast? = some (q1, q2, [c]) ∧
          drops.getLast? = some (c, 0)) := by
  intro k
  induction k using Nat.strong_induction_on with
  | _ k ih =>
    intro fn hk record results log rng
    cases k with
    | zero =>
      have hfn : fn = [] := List.length_eq_zero.mp hk
      subst hfn
      refine ⟨[], [], ?_, List.Perm.refl _, rfl, rfl, fun h => absurd rfl h⟩
      rw [drop_loop]
      rw [dif_neg (by simp)]
      simp [apply_drops]
    | succ m =>
      have hne : fn ≠ [] := by
        intro h
        rw [h] at hk
        simp at hk
      have h1 : fn.length ≥ 1 := by omega
      obtain ⟨tl, vl, vals, hms, hvlen⟩ :=
        multisplit_20_1_5_5 O ⟨fn, X_train.id⟩ y_train rng
      dsimp only at hms hvlen
      have hvne : vals ≠ [] := by
        intro h
        rw [h] at hvlen
        simp at hvlen
        omega
      have hlt : argmin vals < fn.length := by
        have := argmin_lt_length vals hvne
        omega
      have hlt2 : argmin vals < vals.length := by omega
      set least := fn.get ⟨argmin vals, hlt⟩ with hleast
      have hmem : least ∈ fn := fn.get_mem _ hlt
      have hlen2 : (fn.erase least).length = m := by
        rw [List.length_erase_of_mem hmem]
        omega
      obtain ⟨drops2, res3, hEq, hPerm, hSnd, hLens, hLast⟩ :=
        ih m (by omega) (fn.erase least) hlen2
          (record_append record least (fn.erase least).length)
          (results ++ [(tl, vl, fn)])
          (log ++ (List.range 5).map (fun i => rng + 6 * i)) (rng + 30)
      refine ⟨(least, (fn.erase least).length) :: drops2,
        (tl, vl, fn) :: res3, ?_, ?_, ?_, ?_, ?_⟩
      · rw [drop_loop]
        rw [dif_pos h1, hms]
        dsimp only
        rw [dif_neg hvne, dif_pos hlt]
        rw [← hleast, hEq]
        have e2 : results ++ ((tl, vl, fn) :: res3) =
            (results ++ [(tl, vl, fn)]) ++ res3 := by
          rw [List.append_assoc]
          rfl
        have hlog : (List.range 5).map (fun i => rng + 6 * i) ++
            (List.range (5 * m)).map (fun i => rng + 30 + 6 * i) =
            (List.range (5 * (m + 1))).map (fun i => rng + 6 * i) := by
          have h5 : 5 * (m + 1) = 5 + 5 * m := by ring
          rw [h5, List.range_add, List.map_append, List.map_map]
          congr 1
          apply List.map_congr_left
          intro i _
          simp only [Function.comp]
          ring
        have e3 : log ++
            (List.range (5 * (m + 1))).map (fun i => rng + 6 * i) =
            (log ++ (List.range 5).map (fun i => rng + 6 * i)) ++
              (List.range (5 * m)).map (fun i => rng + 30 + 6 * i) := by
          rw [← hlog, List.append_assoc]
        have e4 : rng + 30 * (m + 1) = rng + 30 + 30 * m := by ring
        rw [e2, e3, e4]
        rfl
      · rw [List.map_cons]
        exact (List.Perm.cons least hPerm).trans
          (List.perm_cons_erase hmem).symm
      · rw [List.map_cons, hSnd, hlen2, List.range_succ, List.reverse_append]
        rfl
      · rw [List.map_cons, hLens, List.range_succ, List.reverse_append]
        simp only [List.reverse_singleton, List.singleton_append,
          List.map_cons]
        rw [hk]
      · intro _
        by_cases hfe : fn.erase least = []
        · have hm0 : m = 0 := by rw [hfe] at hlen2; simpa using hlen2.symm
          subst hm0
          have hres3 : res3 = [] := by
            have := hLens
            simp at this
            exact this
          have hdrops2 : drops2 = [] := by
            have := hSnd
            simp at this
            exact this
          subst hres3 hdrops2
          have hfn1 : fn.length = 1 := by omega
          obtain ⟨c, hc⟩ := List.length_eq_one.mp hfn1
          have hlc : least = c := by
            have := hmem
            rw [hc] at this
            simpa using this
          refine ⟨c, tl, vl, ?_, ?_⟩
          · rw [hc]
            rfl
          · have hz : (fn.erase least).length = 0 := by rw [hfe]; rfl
            rw [hz, hlc]
            rfl
        · obtain ⟨c, q1, q2, hr, hd⟩ := hLast hfe
          have hmne : m ≠ 0 := by
            intro h0
            exact hfe (List.length_eq_zero.mp (by rw [hlen2, h0]))
          have hres3ne : res3 ≠ [] := by
            intro h
            rw [h] at hLens
            have h2 : ((List.range m).reverse.map (fun i => i + 1)) = [] :=
              hLens.symm
            simp at h2
            exact hmne h2
          have hdrops2ne : drops2 ≠ [] := by
            intro h
            rw [h] at hSnd
            have h2 : ((List.range m).reverse) = [] := hSnd.symm
            simp at h2
            exact hmne h2
          exact ⟨c, q1, q2,
            by rw [getLast?_cons_ne_nil _ _ hres3ne]; exact hr,
            by rw [getLast?_cons_ne_nil _ _ hdrops2ne]; exact hd⟩

/-! ### Run-level characterization of `drop_feature_experiment` -/

theorem lookupList_init (cols : List String) (c : String) :
    lookupList (cols.map (fun feature => (feature, ([] : List Nat)))) c =
      [] := by
  induction cols with
  | nil => rfl
  | cons a t ih =>
    simp only [List.map_cons, lookupList]
    by_cases h : a = c <;> simp [h, ih]

theorem flatten_record_init (cols : List String) :
    flatten_record (cols.map (fun feature => (feature, ([] : List Nat)))) =
      [] := by
  induction cols with
  | nil => rfl
  | cons a t ih =>
    simp only [flatten_record, List.map_cons, List.map_map] at ih ⊢
    simp

/-- One full invocation of `drop_feature_experiment`, described end to end:
it always returns successfully; the returned record is the all-empty initial
record with one drop event per original feature applied; the local-split log
is the arithmetic progression of randomness draws starting right after the
top-level `train_test_split`. -/
theorem drop_feature_experiment_spec (O : RFOracle) (env : Env) (rng : Nat) :
    ∃ (drops : List (String × Nat)) (res2 : List (ℚ × ℚ × List String)),
      drop_feature_experiment O env rng =
        .ok (apply_drops
            (env.dataset_preprocessed.cols.map (fun feature => (feature, [])))
            drops,
          res2,
          (List.range (5 * env.dataset_preprocessed.cols.length)).map
            (fun i => (rng + 1) + 6 * i),
          (rng + 1) + 30 * env.dataset_preprocessed.cols.length) ∧
      (drops.map Prod.fst).Perm env.dataset_preprocessed.cols ∧
      drops.map Prod.snd =
        (List.range env.dataset_preprocessed.cols.length).reverse ∧
      res2.map (fun r => r.2.2.length) =
        (List.range env.dataset_preprocessed.cols.length).reverse.map
          (fun i => i + 1) ∧
      (env.dataset_preprocessed.cols ≠ [] →
        ∃ c q1 q2, res2.getLast? = some (q1, q2, [c]) ∧
          drops.getLast? = some (c, 0)) := by
  obtain ⟨drops, res2, hEq, hPerm, hSnd, hLens, hLast⟩ :=
    drop_loop_spec O
      ⟨env.dataset_preprocessed.cols,
        Nat.pair env.dataset_preprocessed.id (Nat.pair rng 0)⟩
      (Nat.pair env.labels (Nat.pair rng 0))
      env.dataset_preprocessed.cols.length env.dataset_preprocessed.cols rfl
      (env.dataset_preprocessed.cols.map (fun feature => (feature, [])))
      [] [] (rng + 1)
  refine ⟨drops, res2, ?_, hPerm, hSnd, hLens, hLast⟩
  unfold drop_feature_experiment
  dsimp only [train_test_split]
  rw [hEq]
  simp

/-! ### Claim C1 -/

/-- Claim C1 (amended): during one invocation of the elimination loop over `k`
active features, the local 80/20 train/validation re-split of the training data
is performed not once but `n_dataset_iterations = 5` times per round — `5·k`
times per invocation, inside `multisplit_avg_random_forest_fit_predict` — and
every Stabilizer invocation receives a fresh partition: the log of local-split
randomness draws has length `5·k` and is duplicate-free, so no partition is
reused across rounds or iterations of a single run. -/
theorem elimination_resplit_five_per_round (O : RFOracle) (env : Env)
    (rng : Nat) :
    ∃ rec res log rngOut,
      drop_feature_experiment O env rng = .ok (rec, res, log, rngOut) ∧
      log = (List.range (5 * env.dataset_preprocessed.cols.length)).map
        (fun i => (rng + 1) + 6 * i) ∧
      log.length = 5 * env.dataset_preprocessed.cols.length ∧
      log.Nodup := by
  obtain ⟨drops, res2, hEq, -, -, -, -⟩ :=
    drop_feature_experiment_spec O env rng
  refine ⟨_, _, _, _, hEq, rfl, by simp, ?_⟩
  apply List.Nodup.map
  · intro a b hab
    simp only at hab
    omega
  · exact List.nodup_range _

/-- Claim C1 (counterexample): on a concrete two-feature run, the local
train/validation split is performed ten times (five per round), not exactly
once, and the ten partitions handed to the Stabilizer are pairwise distinct,
so no round reuses the previous round's partition. -/
theorem elimination_resplit_once_counterexample :
    dropLogOf (drop_feature_experiment zeroOracle envAB 0) =
      [1, 7, 13, 19, 25, 31, 37, 43, 49, 55] ∧
    (dropLogOf (drop_feature_experiment zeroOracle envAB 0)).length ≠ 1 ∧
    (dropLogOf (drop_feature_experiment zeroOracle envAB 0)).Nodup := by
  obtain ⟨drops, res2, hEq, -, -, -, -⟩ :=
    drop_feature_experiment_spec zeroOracle envAB 0
  rw [hEq]
  simp only [dropLogOf]
  refine ⟨?_, ?_, ?_⟩ <;> decide

/-! ### Claim C8 -/

/-- Claim C8 (amended): invoked with a starting feature set of size `0`, the
elimination loop does not fail fast: it performs no rounds and silently
returns the empty drop record, with no error raised. -/
theorem drop_experiment_empty_features_silent (O : RFOracle) (env : Env)
    (rng : Nat) (h : env.dataset_preprocessed.cols = []) :
    drop_feature_experiment O env rng = .ok ([], [], [], rng + 1) := by
  unfold drop_feature_experiment
  dsimp only [train_test_split]
  rw [h]
  rw [drop_loop]
  rw [dif_neg (by simp)]
  rfl

/-- Claim C8 (witness): the amended claim evaluated on a concrete zero-feature
environment. -/
theorem drop_experiment_empty_features_silent_witness :
    drop_feature_experiment zeroOracle envEmpty 0 = .ok ([], [], [], 1) :=
  drop_experiment_empty_features_silent zeroOracle envEmpty 0 rfl

/-- Claim C8 (counterexample): with a starting feature set of size `0`, the
call raises no error and its drop record is empty — so the claim that it
"fails fast with a configuration error rather than silently returning an
empty drop record" is false on the code. -/
theorem drop_experiment_empty_features_error_counterexample :
    dropRaised (drop_feature_experiment zeroOracle envEmpty 0) = false ∧
    dropRecordOf (drop_feature_experiment zeroOracle envEmpty 0) = [] := by
  have h : drop_feature_experiment zeroOracle envEmpty 0 =
      .ok ([], [], [], 1) := by
    unfold drop_feature_experiment
    dsimp only [train_test_split]
    rw [show envEmpty.dataset_preprocessed.cols = [] from rfl]
    rw [drop_loop]
    rw [dif_neg (by simp)]
    rfl
  rw [h]
  exact ⟨rfl, rfl⟩

/-! ### Claim C2 -/

/-- Claim C2: for every starting active feature set of size `k ≥ 1` (with its
feature names pairwise distinct, as pandas columns are), the elimination loop
terminates after exactly `k` rounds; the returned drop record has exactly the
`k` original feature names as keys, each mapped to a one-element sequence;
the last round runs with exactly one active feature, and that feature is
recorded with remaining-count `0`. -/
theorem elimination_k_rounds_record (O : RFOracle) (env : Env) (rng : Nat)
    (hnd : env.dataset_preprocessed.cols.Nodup)
    (hk : 1 ≤ env.dataset_preprocessed.cols.length) :
    ∃ rec res log rngOut,
      drop_feature_experiment O env rng = .ok (rec, res, log, rngOut) ∧
      rec.map Prod.fst = env.dataset_preprocessed.cols ∧
      (∀ e ∈ rec, e.2.length = 1) ∧
      res.length = env.dataset_preprocessed.cols.length ∧
      (∃ c q1 q2, res.getLast? = some (q1, q2, [c]) ∧
        lookupList rec c = [0]) := by
  obtain ⟨drops, res2, hEq, hPerm, hSnd, hLens, hLast⟩ :=
    drop_feature_experiment_spec O env rng
  have hcne : env.dataset_preprocessed.cols ≠ [] := by
    intro h
    rw [h] at hk
    simp at hk
  obtain ⟨c, q1, q2, hr, hd⟩ := hLast hcne
  have hkeys0 : ((env.dataset_preprocessed.cols.map
      (fun feature => (feature, ([] : List Nat)))).map Prod.fst) =
      env.dataset_preprocessed.cols := by
    rw [List.map_map]
    rw [show (Prod.fst ∘ fun feature : String => (feature, ([] : List Nat)))
      = id from rfl]
    exact List.map_id _
  have hdnodup : (drops.map Prod.fst).Nodup := hPerm.nodup_iff.mpr hnd
  refine ⟨_, _, _, _, hEq, ?_, ?_, ?_, ?_⟩
  · rw [apply_drops_keys]
    exact hkeys0
  · intro e he
    rw [apply_drops_eq] at he
    rcases List.mem_map.mp he with ⟨e0, he0, rfl⟩
    rcases List.mem_map.mp he0 with ⟨f, hf, rfl⟩
    have hfd : f ∈ drops.map Prod.fst := hPerm.mem_iff.mpr hf
    obtain ⟨w, hw⟩ := mem_keys_exists_pair drops f hfd
    simp only [filter_key_nodup_of_mem drops f w hdnodup hw]
    rfl
  · have hlen := congrArg List.length hLens
    simpa using hlen
  · refine ⟨c, q1, q2, hr, ?_⟩
    have hcd : (c, 0) ∈ drops := List.mem_of_mem_getLast? hd
    have hcin : c ∈ env.dataset_preprocessed.cols :=
      hPerm.mem_iff.mp (List.mem_map.mpr ⟨(c, 0), hcd, rfl⟩)
    have hcrec : c ∈ (env.dataset_preprocessed.cols.map
        (fun feature => (feature, ([] : List Nat)))).map Prod.fst := by
      rw [hkeys0]
      exact hcin
    rw [lookupList_apply_drops _ drops c hcrec, lookupList_init,
      filter_key_nodup_of_mem drops c 0 hdnodup hcd]
    rfl

/-- Claim C2 (witness): the theorem evaluated on a concrete two-feature
environment. -/
theorem elimination_k_rounds_record_witness :
    (envAB.dataset_preprocessed.cols.Nodup ∧
      1 ≤ envAB.dataset_preprocessed.cols.length) ∧
    (∃ rec res log rngOut,
      drop_feature_experiment zeroOracle envAB 0 =
        .ok (rec, res, log, rngOut) ∧
      rec.map Prod.fst = envAB.dataset_preprocessed.cols ∧
      (∀ e ∈ rec, e.2.length = 1) ∧
      res.length = envAB.dataset_preprocessed.cols.length ∧
      (∃ c q1 q2, res.getLast? = some (q1, q2, [c]) ∧
        lookupList rec c = [0])) :=
  ⟨⟨by decide, by decide⟩,
    elimination_k_rounds_record zeroOracle envAB 0 (by decide) (by decide)⟩

/-! ### Claim C3 -/

/-- Claim C3: over `k` starting features (pairwise distinct), the multiset of
remaining-count values recorded by one elimination run, sorted descending,
is exactly the strictly decreasing sequence `k-1, k-2, …, 0` — no duplicates,
no gaps. -/
theorem elimination_recorded_values_descending (O : RFOracle) (env : Env)
    (rng : Nat) (hnd : env.dataset_preprocessed.cols.Nodup) :
    ∃ rec res log rngOut,
      drop_feature_experiment O env rng = .ok (rec, res, log, rngOut) ∧
      (flatten_record rec).mergeSort (fun a b => decide (b ≤ a)) =
        (List.range env.dataset_preprocessed.cols.length).reverse := by
  obtain ⟨drops, res2, hEq, hPerm, hSnd, hLens, hLast⟩ :=
    drop_feature_experiment_spec O env rng
  refine ⟨_, _, _, _, hEq, ?_⟩
  have hkeys0 : ((env.dataset_preprocessed.cols.map
      (fun feature => (feature, ([] : List Nat)))).map Prod.fst) =
      env.dataset_preprocessed.cols := by
    rw [List.map_map]
    rw [show (Prod.fst ∘ fun feature : String => (feature, ([] : List Nat)))
      = id from rfl]
    exact List.map_id _
  have hknodup : ((env.dataset_preprocessed.cols.map
      (fun feature => (feature, ([] : List Nat)))).map Prod.fst).Nodup := by
    rw [hkeys0]
    exact hnd
  have hsub : ∀ p ∈ drops, p.1 ∈ (env.dataset_preprocessed.cols.map
      (fun feature => (feature, ([] : List Nat)))).map Prod.fst := by
    intro p hp
    rw [hkeys0]
    exact hPerm.mem_iff.mp (List.mem_map.mpr ⟨p, hp, rfl⟩)
  have hflat := flatten_apply_drops_perm
    (env.dataset_preprocessed.cols.map (fun feature => (feature, [])))
    drops hknodup hsub
  rw [flatten_record_init, List.nil_append, hSnd] at hflat
  have hperm2 := (List.mergeSort_perm (flatten_record
    (apply_drops (env.dataset_preprocessed.cols.map
      (fun feature => (feature, []))) drops))
    (fun a b => decide (b ≤ a))).trans hflat
  have hsorted1 : List.Sorted (fun a b => b ≤ a)
      ((flatten_record (apply_drops (env.dataset_preprocessed.cols.map
        (fun feature => (feature, []))) drops)).mergeSort
        (fun a b => decide (b ≤ a))) := by
    have := @List.sorted_mergeSort Nat (fun a b : Nat => decide (b ≤ a))
      (fun a b c hab hbc => by
        simp only [decide_eq_true_eq] at hab hbc ⊢
        omega)
      (fun a b => by
        simp only [Bool.or_eq_true, decide_eq_true_eq]
        omega)
      (flatten_record (apply_drops (env.dataset_preprocessed.cols.map
        (fun feature => (feature, []))) drops))
    exact this.imp (fun h => by simpa using h)
  have hsorted2 : List.Sorted (fun a b => b ≤ a)
      ((List.range env.dataset_preprocessed.cols.length).reverse) := by
    rw [List.Sorted, List.pairwise_reverse]
    exact (List.pairwise_lt_range _).imp (fun h => le_of_lt h)
  exact List.eq_of_perm_of_sorted hperm2 hsorted1 hsorted2

/-- Claim C3 (witness): the theorem evaluated on a concrete two-feature
environment. -/
theorem elimination_recorded_values_descending_witness :
    envAB.dataset_preprocessed.cols.Nodup ∧
    (∃ rec res log rngOut,
      drop_feature_experiment zeroOracle envAB 0 =
        .ok (rec, res, log, rngOut) ∧
      (flatten_record rec).mergeSort (fun a b => decide (b ≤ a)) =
        (List.range envAB.dataset_preprocessed.cols.length).reverse) :=
  ⟨by decide,
    elimination_recorded_values_descending zeroOracle envAB 0 (by decide)⟩

/-! ### Claim C4 -/

/-- Claim C4: in every elimination round over a nonempty active list, the
feature removed is the one at `np.argmin` of the averaged importance vector
returned by the multisplit Stabilizer wrapper: its score is a minimum of the
vector, every strictly earlier position has a strictly larger score (first
occurrence wins ties, in current list order), the round performs exactly this
removal (`list.remove` of that feature), and the value recorded under the
removed feature's name is the size of the active list after the removal. -/
theorem elimination_round_selection (O : RFOracle) (X_train : Frame)
    (y_train : Nat) (fn : List String) (record : DropRecord)
    (results : List (ℚ × ℚ × List String)) (log : List Nat) (rng : Nat)
    (h1 : 1 ≤ fn.length) :
    ∃ tl vl vals slog rng1,
      multisplit_avg_random_forest_fit_predict O ⟨fn, X_train.id⟩ y_train
          20 1 5 5 rng = .ok ((tl, vl, ⟨fn, vals⟩), slog, rng1) ∧
      vals.length = fn.length ∧
      ∃ hm : argmin vals < vals.length,
        (∀ (j : Nat) (hj : j < vals.length),
          vals.get ⟨argmin vals, hm⟩ ≤ vals.get ⟨j, hj⟩) ∧
        (∀ (j : Nat) (hj : j < vals.length), j < argmin vals →
          vals.get ⟨argmin vals, hm⟩ < vals.get ⟨j, hj⟩) ∧
        ∃ hm2 : argmin vals < fn.length,
          drop_loop O X_train y_train fn record results log rng =
            drop_loop O X_train y_train
              (fn.erase (fn.get ⟨argmin vals, hm2⟩))
              (record_append record (fn.get ⟨argmin vals, hm2⟩)
                ((fn.erase (fn.get ⟨argmin vals, hm2⟩)).length))
              (results ++ [(tl, vl, fn)]) (log ++ slog) rng1 ∧
          (fn.erase (fn.get ⟨argmin vals, hm2⟩)).length = fn.length - 1 := by
  obtain ⟨tl, vl, vals, hms, hvlen⟩ :=
    multisplit_20_1_5_5 O ⟨fn, X_train.id⟩ y_train rng
  dsimp only at hms hvlen
  refine ⟨tl, vl, vals, _, _, hms, hvlen, ?_⟩
  have hvne : vals ≠ [] := by
    intro h
    rw [h] at hvlen
    simp at hvlen
    omega
  have hm : argmin vals < vals.length := argmin_lt_length vals hvne
  refine ⟨hm, fun j hj => get_argmin_le vals hm j hj,
    fun j hj hlt => get_argmin_first vals hm j hj hlt, ?_⟩
  have hm2 : argmin vals < fn.length := by omega
  refine ⟨hm2, ?_, ?_⟩
  · conv_lhs => rw [drop_loop]
    rw [dif_pos h1, hms]
    dsimp only
    rw [dif_neg hvne, dif_pos hm2]
  · rw [List.length_erase_of_mem (fn.get_mem _ hm2)]

/-- Claim C4 (witness): the round theorem evaluated on a concrete two-feature
active list. -/
theorem elimination_round_selection_witness :
    1 ≤ (["a", "b"] : List String).length ∧
    (∃ tl vl vals slog rng1,
      multisplit_avg_random_forest_fit_predict zeroOracle
          ⟨["a", "b"], (7 : Nat)⟩ 0 20 1 5 5 0 =
        .ok ((tl, vl, ⟨["a", "b"], vals⟩), slog, rng1) ∧
      vals.length = (["a", "b"] : List String).length ∧
      ∃ hm : argmin vals < vals.length,
        (∀ (j : Nat) (hj : j < vals.length),
          vals.get ⟨argmin vals, hm⟩ ≤ vals.get ⟨j, hj⟩) ∧
        (∀ (j : Nat) (hj : j < vals.length), j < argmin vals →
          vals.get ⟨argmin vals, hm⟩ < vals.get ⟨j, hj⟩) ∧
        ∃ hm2 : argmin vals < (["a", "b"] : List String).length,
          drop_loop zeroOracle ⟨["a", "b"], (7 : Nat)⟩ 0 ["a", "b"]
              [("a", []), ("b", [])] [] [] 0 =
            drop_loop zeroOracle ⟨["a", "b"], (7 : Nat)⟩ 0
              ((["a", "b"] : List String).erase
                ((["a", "b"] : List String).get ⟨argmin vals, hm2⟩))
              (record_append [("a", []), ("b", [])]
                ((["a", "b"] : List String).get ⟨argmin vals, hm2⟩)
                (((["a", "b"] : List String).erase
                  ((["a", "b"] : List String).get
                    ⟨argmin vals, hm2⟩)).length))
              ([] ++ [(tl, vl, ["a", "b"])]) ([] ++ slog) rng1 ∧
          (((["a", "b"] : List String).erase
            ((["a", "b"] : List String).get ⟨argmin vals, hm2⟩)).length) =
            (["a", "b"] : List String).length - 1) :=
  ⟨by decide,
    elimination_round_selection zeroOracle ⟨["a", "b"], 7⟩ 0 ["a", "b"]
      [("a", []), ("b", [])] [] [] 0 (by decide)⟩

/-! ### Properties of `merge_counts` and the aggregator -/

theorem lookupList_of_not_mem (r : DropRecord) (c : String)
    (h : c ∉ r.map Prod.fst) : lookupList r c = [] := by
  induction r with
  | nil => rfl
  | cons e rest ih =>
    have he : e.1 ≠ c := by
      intro hc
      exact h (List.mem_map.mpr ⟨e, List.mem_cons_self e rest, hc⟩)
    have h2 : c ∉ rest.map Prod.fst := by
      intro hm
      rcases List.mem_map.mp hm with ⟨q, hq, hqc⟩
      exact h (List.mem_map.mpr ⟨q, List.mem_cons_of_mem e hq, hqc⟩)
    simp only [lookupList, if_neg he]
    exact ih h2

theorem lookupList_append_of_not_mem (l1 l2 : DropRecord) (c : String)
    (h : c ∉ l1.map Prod.fst) :
    lookupList (l1 ++ l2) c = lookupList l2 c := by
  induction l1 with
  | nil => rfl
  | cons e rest ih =>
    have he : e.1 ≠ c := by
      intro hc
      exact h (List.mem_map.mpr ⟨e, List.mem_cons_self e rest, hc⟩)
    have h2 : c ∉ rest.map Prod.fst := by
      intro hm
      rcases List.mem_map.mp hm with ⟨q, hq, hqc⟩
      exact h (List.mem_map.mpr ⟨q, List.mem_cons_of_mem e hq, hqc⟩)
    simp only [List.cons_append, lookupList, if_neg he]
    exact ih h2

theorem lookupList_append_of_mem (l1 l2 : DropRecord) (c : String)
    (h : c ∈ l1.map Prod.fst) :
    lookupList (l1 ++ l2) c = lookupList l1 c := by
  induction l1 with
  | nil => simp at h
  | cons e rest ih =>
    by_cases he : e.1 = c
    · simp only [List.cons_append, lookupList, if_pos he]
    · have h2 : c ∈ rest.map Prod.fst := by
        rcases List.mem_map.mp h with ⟨q, hq, hqc⟩
        rcases List.mem_cons.mp hq with rfl | hq2
        · exact absurd hqc he
        · exact List.mem_map.mpr ⟨q, hq2, hqc⟩
      simp only [List.cons_append, lookupList, if_neg he]
      exact ih h2

theorem update_keys (acc : DropRecord) (f : String) (l : List Nat) :
    (acc.map (fun e => if e.1 = f then (e.1, e.2 ++ l) else e)).map
      Prod.fst = acc.map Prod.fst := by
  rw [List.map_map]
  apply List.map_congr_left
  intro e _
  by_cases h : e.1 = f <;> simp [h]

theorem lookup_update_ne (acc : DropRecord) (f : String) (l : List Nat)
    (c : String) (hne : c ≠ f) :
    lookupList (acc.map (fun e => if e.1 = f then (e.1, e.2 ++ l) else e))
      c = lookupList acc c := by
  induction acc with
  | nil => rfl
  | cons e rest ih =>
    by_cases hef : e.1 = f
    · have hec : e.1 ≠ c := by
        rw [hef]
        exact fun h => hne h.symm
      simp only [List.map_cons, if_pos hef, lookupList, if_neg hec]
      exact ih
    · simp only [List.map_cons, if_neg hef, lookupList]
      by_cases hec : e.1 = c
      · simp [hec]
      · simp only [if_neg hec]
        exact ih

theorem lookup_update_eq (acc : DropRecord) (f : String) (l : List Nat)
    (hin : f ∈ acc.map Prod.fst) :
    lookupList (acc.map (fun e => if e.1 = f then (e.1, e.2 ++ l) else e))
      f = lookupList acc f ++ l := by
  induction acc with
  | nil => simp at hin
  | cons e rest ih =>
    by_cases hef : e.1 = f
    · simp only [List.map_cons, if_pos hef, lookupList, if_pos hef]
    · have h2 : f ∈ rest.map Prod.fst := by
        rcases List.mem_map.mp hin with ⟨q, hq, hqc⟩
        rcases List.mem_cons.mp hq with rfl | hq2
        · exact absurd hqc hef
        · exact List.mem_map.mpr ⟨q, hq2, hqc⟩
      simp only [List.map_cons, if_neg hef, lookupList, if_neg hef]
      exact ih h2

theorem contains_iff_mem_keys (acc : DropRecord) (f : String) :
    (acc.map Prod.fst).contains f = true ↔ f ∈ acc.map Prod.fst := by
  simp [List.contains_iff_exists_mem_beq, beq_iff_eq, eq_comm]

theorem merge_counts_step (acc : DropRecord) (fi : String × List Nat)
    (c : String) :
    lookupList
      (if (acc.map Prod.fst).contains fi.1 then
        acc.map (fun e => if e.1 = fi.1 then (e.1, e.2 ++ fi.2) else e)
      else acc ++ [fi]) c =
    lookupList acc c ++ (if c = fi.1 then fi.2 else []) := by
  by_cases f_mem : fi.1 ∈ acc.map Prod.fst
  case pos =>
    rw [if_pos ((contains_iff_mem_keys acc fi.1).mpr f_mem)]
    by_cases hc : c = fi.1
    · rw [hc, if_pos rfl]
      exact lookup_update_eq acc fi.1 fi.2 f_mem
    · rw [if_neg hc, List.append_nil]
      exact lookup_update_ne acc fi.1 fi.2 c hc
  case neg =>
    rw [if_neg (fun h => f_mem ((contains_iff_mem_keys acc fi.1).mp h))]
    by_cases hc : c = fi.1
    · have hnm : fi.1 ∉ acc.map Prod.fst := f_mem
      rw [hc, if_pos rfl, lookupList_append_of_not_mem acc [fi] fi.1 hnm,
        lookupList_of_not_mem acc fi.1 hnm, List.nil_append]
      show (if fi.1 = fi.1 then fi.2 else lookupList [] fi.1) = fi.2
      rw [if_pos rfl]
    · rw [if_neg hc, List.append_nil]
      by_cases hmem : c ∈ acc.map Prod.fst
      · exact lookupList_append_of_mem acc [fi] c hmem
      · rw [lookupList_append_of_not_mem acc [fi] c hmem,
          lookupList_of_not_mem acc c hmem]
        show (if fi.1 = c then fi.2 else lookupList [] c) = []
        rw [if_neg (fun h => hc h.symm)]
        rfl

theorem merge_counts_step_keys (acc : DropRecord) (fi : String × List Nat)
    (hin : fi.1 ∈ acc.map Prod.fst) :
    (if (acc.map Prod.fst).contains fi.1 then
      acc.map (fun e => if e.1 = fi.1 then (e.1, e.2 ++ fi.2) else e)
    else acc ++ [fi]).map Prod.fst = acc.map Prod.fst := by
  rw [if_pos ((contains_iff_mem_keys acc fi.1).mpr hin)]
  exact update_keys acc fi.1 fi.2

theorem merge_counts_keys_of_subset :
    ∀ (rec acc : DropRecord),
      (∀ k ∈ rec.map Prod.fst, k ∈ acc.map Prod.fst) →
      (merge_counts acc rec).map Prod.fst = acc.map Prod.fst := by
  intro rec
  induction rec with
  | nil => intro acc _; rfl
  | cons fi rest ih =>
    intro acc hsub
    have hin : fi.1 ∈ acc.map Prod.fst :=
      hsub fi.1 (List.mem_map.mpr ⟨fi, List.mem_cons_self fi rest, rfl⟩)
    have hstep := merge_counts_step_keys acc fi hin
    show (merge_counts (if (acc.map Prod.fst).contains fi.1 then
        acc.map (fun e => if e.1 = fi.1 then (e.1, e.2 ++ fi.2) else e)
      else acc ++ [fi]) rest).map Prod.fst = acc.map Prod.fst
    rw [ih _ (by
      intro k hk
      rw [hstep]
      exact hsub k (by
        rcases List.mem_map.mp hk with ⟨q, hq, hqc⟩
        exact List.mem_map.mpr ⟨q, List.mem_cons_of_mem fi hq, hqc⟩)),
      hstep]

theorem merge_counts_of_disjoint :
    ∀ (rec acc : DropRecord),
      (∀ k ∈ acc.map Prod.fst, k ∉ rec.map Prod.fst) →
      (rec.map Prod.fst).Nodup →
      merge_counts acc rec = acc ++ rec := by
  intro rec
  induction rec with
  | nil => intro acc _ _; simp [merge_counts]
  | cons fi rest ih =>
    intro acc hdis hnd
    simp only [List.map_cons, List.nodup_cons] at hnd
    have hnin : fi.1 ∉ acc.map Prod.fst := by
      intro hin
      exact hdis fi.1 hin
        (List.mem_map.mpr ⟨fi, List.mem_cons_self fi rest, rfl⟩)
    show merge_counts (if (acc.map Prod.fst).contains fi.1 then
        acc.map (fun e => if e.1 = fi.1 then (e.1, e.2 ++ fi.2) else e)
      else acc ++ [fi]) rest = acc ++ (fi :: rest)
    rw [if_neg (fun h => hnin ((contains_iff_mem_keys acc fi.1).mp h))]
    rw [ih (acc ++ [fi]) (by
        intro k hk hmem
        rw [List.map_append] at hk
        rcases List.mem_append.mp hk with hk1 | hk2
        · exact hdis k hk1 (by
            rcases List.mem_map.mp hmem with ⟨q, hq, hqc⟩
            exact List.mem_map.mpr ⟨q, List.mem_cons_of_mem fi hq, hqc⟩)
        · simp at hk2
          rw [hk2] at hmem
          exact hnd.1 hmem)
      hnd.2]
    rw [List.append_assoc]
    rfl

theorem merge_counts_lookup :
    ∀ (rec acc : DropRecord) (c : String),
      (rec.map Prod.fst).Nodup →
      lookupList (merge_counts acc rec) c =
        lookupList acc c ++ lookupList rec c := by
  intro rec
  induction rec with
  | nil => intro acc c _; simp [merge_counts, lookupList]
  | cons fi rest ih =>
    intro acc c hnd
    simp only [List.map_cons, List.nodup_cons] at hnd
    show lookupList (merge_counts
      (if (acc.map Prod.fst).contains fi.1 then
        acc.map (fun e => if e.1 = fi.1 then (e.1, e.2 ++ fi.2) else e)
      else acc ++ [fi]) rest) c = _
    rw [ih _ c hnd.2, merge_counts_step acc fi c, List.append_assoc]
    congr 1
    show (if c = fi.1 then fi.2 else []) ++ lookupList rest c =
      lookupList (fi :: rest) c
    by_cases hc : c = fi.1
    · have hrest : lookupList rest fi.1 = [] :=
        lookupList_of_not_mem rest fi.1 hnd.1
      rw [hc, if_pos rfl, hrest, List.append_nil]
      show fi.2 = (if fi.1 = fi.1 then fi.2 else lookupList rest fi.1)
      rw [if_pos rfl]
    · rw [if_neg hc, List.nil_append]
      show lookupList rest c = (if fi.1 = c then fi.2 else lookupList rest c)
      rw [if_neg (fun h => hc h.symm)]

theorem run_rng_shift (O : RFOracle) (env : Env) (rng : Nat) :
    ∀ i, run_rng O env (run_rng O env rng 1) i = run_rng O env rng (i + 1) := by
  intro i
  induction i with
  | zero => rfl
  | succ n ih =>
    show (match drop_feature_experiment O env
        (run_rng O env (run_rng O env rng 1) n) with
      | .ok (_, _, _, rng') => rng'
      | .error _ => 0) = run_rng O env rng (n + 2)
    rw [ih]
    rfl

theorem run_record_shift (O : RFOracle) (env : Env) (rng : Nat) (i : Nat) :
    run_record O env (run_rng O env rng 1) i = run_record O env rng (i + 1) := by
  unfold run_record
  rw [run_rng_shift]

theorem run_record_keys (O : RFOracle) (env : Env) (rng : Nat) (i : Nat) :
    (run_record O env rng i).map Prod.fst =
      env.dataset_preprocessed.cols := by
  obtain ⟨drops, res2, hEq, -, -, -, -⟩ :=
    drop_feature_experiment_spec O env (run_rng O env rng i)
  unfold run_record
  rw [hEq]
  dsimp only
  rw [apply_drops_keys, List.map_map]
  rw [show (Prod.fst ∘ fun feature : String => (feature, ([] : List Nat)))
    = id from rfl]
  exact List.map_id _

theorem run_record_lookup_single (O : RFOracle) (env : Env) (rng : Nat)
    (i : Nat) (c : String) (hnd : env.dataset_preprocessed.cols.Nodup)
    (hc : c ∈ env.dataset_preprocessed.cols) :
    ∃ v, lookupList (run_record O env rng i) c = [v] := by
  obtain ⟨drops, res2, hEq, hPerm, -, -, -⟩ :=
    drop_feature_experiment_spec O env (run_rng O env rng i)
  have hdnodup : (drops.map Prod.fst).Nodup := hPerm.nodup_iff.mpr hnd
  have hcd : c ∈ drops.map Prod.fst := hPerm.mem_iff.mpr hc
  obtain ⟨w, hw⟩ := mem_keys_exists_pair drops c hcd
  have hcrec : c ∈ (env.dataset_preprocessed.cols.map
      (fun feature => (feature, ([] : List Nat)))).map Prod.fst := by
    rw [List.map_map]
    rw [show (Prod.fst ∘ fun feature : String => (feature, ([] : List Nat)))
      = id from rfl]
    rw [List.map_id]
    exact hc
  refine ⟨w, ?_⟩
  unfold run_record
  rw [hEq]
  dsimp only
  rw [lookupList_apply_drops _ drops c hcrec, lookupList_init,
    filter_key_nodup_of_mem drops c w hdnodup hw]
  rfl

theorem flatMap_length_singletons (l : List Nat) (g : Nat → List Nat)
    (h : ∀ i ∈ l, (g i).length = 1) : (l.flatMap g).length = l.length := by
  induction l with
  | nil => rfl
  | cons a t ih =>
    rw [List.flatMap_cons, List.length_append,
      h a (List.mem_cons_self a t), ih (fun i hi =>
        h i (List.mem_cons_of_mem a hi))]
    simp [Nat.add_comm]

/-- The repeated-elimination aggregation loop: starting from an accumulator
whose keys are the original columns (or from the empty accumulator), `n` more
runs extend every feature's sequence with that run's values, in run order. -/
theorem avg_drop_loop_spec (O : RFOracle) (env : Env)
    (hnd : env.dataset_preprocessed.cols.Nodup) :
    ∀ (n : Nat) (acc : DropRecord) (rng : Nat),
      (acc.map Prod.fst = env.dataset_preprocessed.cols ∨ acc = []) →
      ∃ res rngOut, avg_drop_loop O env n acc rng = .ok (res, rngOut) ∧
        (res.map Prod.fst = env.dataset_preprocessed.cols ∨
          (res = acc ∧ n = 0)) ∧
        ∀ c, lookupList res c = lookupList acc c ++
          (List.range n).flatMap
            (fun i => lookupList (run_record O env rng i) c) := by
  intro n
  induction n with
  | zero =>
    intro acc rng hacc
    exact ⟨acc, rng, rfl, Or.inr ⟨rfl, rfl⟩, fun c => by simp⟩
  | succ n ih =>
    intro acc rng hacc
    obtain ⟨drops, res2, hEq, hPerm, hSnd, hLens, hLast⟩ :=
      drop_feature_experiment_spec O env rng
    have hrecKeys : (apply_drops (env.dataset_preprocessed.cols.map
        (fun feature => (feature, []))) drops).map Prod.fst =
        env.dataset_preprocessed.cols := by
      rw [apply_drops_keys, List.map_map]
      rw [show (Prod.fst ∘ fun feature : String => (feature, ([] : List Nat)))
        = id from rfl]
      exact List.map_id _
    have hrecNodup : ((apply_drops (env.dataset_preprocessed.cols.map
        (fun feature => (feature, []))) drops).map Prod.fst).Nodup := by
      rw [hrecKeys]
      exact hnd
    have hrr0 : run_record O env rng 0 =
        apply_drops (env.dataset_preprocessed.cols.map
          (fun feature => (feature, []))) drops := by
      unfold run_record
      show (match drop_feature_experiment O env rng with
        | .ok (rec, _, _, _) => rec
        | .error _ => []) = _
      rw [hEq]
    have hrng1 : run_rng O env rng 1 =
        (rng + 1) + 30 * env.dataset_preprocessed.cols.length := by
      show (match drop_feature_experiment O env rng with
        | .ok (_, _, _, rng') => rng'
        | .error _ => 0) = _
      rw [hEq]
    have hstep : avg_drop_loop O env (n + 1) acc rng =
        avg_drop_loop O env n
          (merge_counts acc (apply_drops (env.dataset_preprocessed.cols.map
            (fun feature => (feature, []))) drops))
          ((rng + 1) + 30 * env.dataset_preprocessed.cols.length) := by
      show (match drop_feature_experiment O env rng with
        | .error e => Except.error e
        | .ok (rec, _results, _log, rng') =>
          avg_drop_loop O env n (merge_counts acc rec) rng') = _
      rw [hEq]
    have hmKeys : (merge_counts acc
        (apply_drops (env.dataset_preprocessed.cols.map
          (fun feature => (feature, []))) drops)).map Prod.fst =
        env.dataset_preprocessed.cols := by
      rcases hacc with hacc | rfl
      · rw [merge_counts_keys_of_subset _ acc (by
          intro k hk
          rw [hacc]
          rw [hrecKeys] at hk
          exact hk)]
        exact hacc
      · rw [merge_counts_of_disjoint _ [] (by simp) hrecNodup,
          List.nil_append]
        exact hrecKeys
    have hmLook : ∀ c, lookupList (merge_counts acc
        (apply_drops (env.dataset_preprocessed.cols.map
          (fun feature => (feature, []))) drops)) c =
        lookupList acc c ++ lookupList
          (apply_drops (env.dataset_preprocessed.cols.map
            (fun feature => (feature, []))) drops) c :=
      fun c => merge_counts_lookup _ acc c hrecNodup
    obtain ⟨res, rngOut, hLoop, hResKeys, hResLook⟩ :=
      ih (merge_counts acc (apply_drops
          (env.dataset_preprocessed.cols.map (fun feature => (feature, [])))
          drops))
        ((rng + 1) + 30 * env.dataset_preprocessed.cols.length)
        (Or.inl hmKeys)
    refine ⟨res, rngOut, by rw [hstep]; exact hLoop, ?_, ?_⟩
    · left
      rcases hResKeys with h | ⟨rfl, -⟩
      · exact h
      · exact hmKeys
    · intro c
      rw [hResLook c, hmLook c]
      have hshift : ∀ i : Nat,
          lookupList (run_record O env
            ((rng + 1) + 30 * env.dataset_preprocessed.cols.length) i) c =
          lookupList (run_record O env rng (i + 1)) c := by
        intro i
        rw [← hrng1, run_record_shift]
      rw [show (fun i => lookupList (run_record O env
          ((rng + 1) + 30 * env.dataset_preprocessed.cols.length) i) c) =
          (fun i => lookupList (run_record O env rng (i + 1)) c) from
          funext hshift]
      rw [List.range_succ_eq_map, List.flatMap_cons, List.flatMap_map,
        hrr0, List.append_assoc]

/-! ### Claim C5 -/

/-- Claim C5: for every `n_runs = N ≥ 1` (over pairwise-distinct columns),
the repeated-elimination aggregator succeeds and returns a record whose keys
are exactly the original feature names, in which every feature's sequence is
the concatenation, in run order, of the one-element sequences the individual
runs recorded for it — `N` values per feature in total, with no run's value
overwriting an earlier one's. -/
theorem aggregator_concatenates_runs (O : RFOracle) (env : Env)
    (N rng : Nat) (hN : 1 ≤ N) (hnd : env.dataset_preprocessed.cols.Nodup) :
    ∃ res rngOut,
      avg_drop_feature_experiment O env N rng = .ok (res, rngOut) ∧
      res.map Prod.fst = env.dataset_preprocessed.cols ∧
      (∀ c ∈ env.dataset_preprocessed.cols, lookupList res c =
        (List.range N).flatMap
          (fun i => lookupList (run_record O env rng i) c)) ∧
      (∀ c ∈ env.dataset_preprocessed.cols,
        (lookupList res c).length = N) := by
  obtain ⟨res, rngOut, hLoop, hKeys, hLook⟩ :=
    avg_drop_loop_spec O env hnd N [] rng (Or.inr rfl)
  have hKeys2 : res.map Prod.fst = env.dataset_preprocessed.cols := by
    rcases hKeys with h | ⟨-, h0⟩
    · exact h
    · omega
  refine ⟨res, rngOut, by unfold avg_drop_feature_experiment; exact hLoop,
    hKeys2, ?_, ?_⟩
  · intro c _
    rw [hLook c]
    rfl
  · intro c hc
    rw [hLook c]
    show ((List.range N).flatMap
      (fun i => lookupList (run_record O env rng i) c)).length = N
    rw [flatMap_length_singletons _ _ (fun i _ => by
      obtain ⟨v, hv⟩ := run_record_lookup_single O env rng i c hnd hc
      rw [hv]
      rfl)]
    exact List.length_range N

/-- Claim C5 (witness): the aggregator theorem evaluated on a concrete
two-feature environment with three runs. -/
theorem aggregator_concatenates_runs_witness :
    (1 ≤ 3 ∧ envAB.dataset_preprocessed.cols.Nodup) ∧
    (∃ res rngOut,
      avg_drop_feature_experiment zeroOracle envAB 3 0 =
        .ok (res, rngOut) ∧
      res.map Prod.fst = envAB.dataset_preprocessed.cols ∧
      (∀ c ∈ envAB.dataset_preprocessed.cols, lookupList res c =
        (List.range 3).flatMap
          (fun i => lookupList (run_record zeroOracle envAB 0 i) c)) ∧
      (∀ c ∈ envAB.dataset_preprocessed.cols,
        (lookupList res c).length = 3)) :=
  ⟨⟨by norm_num, by decide⟩,
    aggregator_concatenates_runs zeroOracle envAB 3 0 (by norm_num)
      (by decide)⟩

/-! ### Claim C7 -/

theorem medianQ_of_ne_nil (l : List ℚ) (h : l ≠ []) :
    ∃ m, medianQ l = some m := by
  unfold medianQ
  have hlen : (l.mergeSort (fun a b => a ≤ b)).length = l.length :=
    List.length_mergeSort l
  have h0 : ¬ (l.mergeSort (fun a b => a ≤ b)).length = 0 := by
    rw [hlen]
    exact fun hh => h (List.length_eq_zero.mp hh)
  dsimp only
  rw [if_neg h0]
  by_cases hp : (l.mergeSort (fun a b => a ≤ b)).length % 2 = 1
  · exact ⟨_, by rw [if_pos hp]⟩
  · exact ⟨_, by rw [if_neg hp]⟩

/-- Claim C7: for every input table in which each column holding a missing
entry also holds at least one available value, imputation replaces each
missing entry with that column's median computed over the column's non-missing
values, leaves every non-missing cell untouched, and leaves a column with no
missing values entirely unchanged. -/
theorem impute_dataset_median_spec (df : NumFrame)
    (H : ∀ col ∈ df, (none : Option ℚ) ∈ col → col.filterMap id ≠ []) :
    (impute_dataset df).length = df.length ∧
    ∀ (i : Nat) (col : List (Option ℚ)), df[i]? = some col →
      ∃ col2, (impute_dataset df)[i]? = some col2 ∧
        col2.length = col.length ∧
        (∀ (j : Nat) (v : ℚ), col[j]? = some (some v) →
          col2[j]? = some (some v)) ∧
        (∀ j : Nat, col[j]? = some none →
          ∃ m, medianQ (col.filterMap id) = some m ∧
            col2[j]? = some (some m)) ∧
        ((none : Option ℚ) ∉ col → col2 = col) := by
  constructor
  · simp [impute_dataset]
  · intro i col hcol
    have hmemcol : col ∈ df := List.getElem?_mem hcol
    refine ⟨fill_col col, ?_, by simp [fill_col], ?_, ?_, ?_⟩
    · unfold impute_dataset
      rw [List.getElem?_map, hcol]
      rfl
    · intro j v hj
      unfold fill_col
      rw [List.getElem?_map, hj]
      rfl
    · intro j hj
      have hnone : (none : Option ℚ) ∈ col := List.getElem?_mem hj
      obtain ⟨med, hmed⟩ := medianQ_of_ne_nil _ (H col hmemcol hnone)
      refine ⟨med, hmed, ?_⟩
      unfold fill_col
      rw [List.getElem?_map, hj]
      show some (colMedian col) = some (some med)
      rw [colMedian, hmed]
    · intro hno
      unfold fill_col
      have hcongr : ∀ c ∈ col,
          (match c with
            | some v => some v
            | none => colMedian col) = c := by
        intro c hcm
        cases c with
        | some v => rfl
        | none => exact absurd hcm hno
      dsimp only
      rw [List.map_congr_left hcongr]
      exact List.map_id col

/-- Claim C7 (witness): the imputation theorem evaluated on a concrete table
with one missing value in each of two columns. -/
theorem impute_dataset_median_spec_witness :
    (∀ col ∈ ([[some 1, none, some 3], [some 5, some 7, none]] : NumFrame),
      (none : Option ℚ) ∈ col → col.filterMap id ≠ []) ∧
    ((impute_dataset [[some 1, none, some 3], [some 5, some 7, none]]).length
        = ([[some 1, none, some 3], [some 5, some 7, none]] :
            NumFrame).length ∧
      ∀ (i : Nat) (col : List (Option ℚ)),
        ([[some 1, none, some 3], [some 5, some 7, none]] :
          NumFrame)[i]? = some col →
        ∃ col2, (impute_dataset [[some 1, none, some 3],
            [some 5, some 7, none]])[i]? = some col2 ∧
          col2.length = col.length ∧
          (∀ (j : Nat) (v : ℚ), col[j]? = some (some v) →
            col2[j]? = some (some v)) ∧
          (∀ j : Nat, col[j]? = some none →
            ∃ m, medianQ (col.filterMap id) = some m ∧
              col2[j]? = some (some m)) ∧
          ((none : Option ℚ) ∉ col → col2 = col)) :=
  ⟨by decide,
    impute_dataset_median_spec [[some 1, none, some 3], [some 5, some 7, none]]
      (by decide)⟩

/-! ### Claim C9 -/

/-- Claim C9: `load_dataset` returns the dataframe exactly as the CSV reader
produced it.  The replacement of the string `"NA"` by the missing-value marker
is computed but its result is never assigned, so the returned dataframe is
unaffected by it — even on inputs where the replacement genuinely changes the
frame, as the second conjunct exhibits. -/
theorem load_dataset_replace_discarded :
    (∀ file : RawFrame, load_dataset file = read_csv file) ∧
    df_replace_NA [[Cell.str "NA"]] ≠ [[Cell.str "NA"]] :=
  ⟨fun _ => rfl, by decide⟩

end MlNutrition
